import Mathlib

/-!
Verification of the CrewAI scraper service core pipeline
(`app/main.py` orchestration and `app/agents/evaluation.py` ranking),
via a shallow embedding in Lean.

Modelling conventions:
* Python floats are modelled as rationals (`ℚ`); `round(x, 2)` is modelled
  as round-half-to-even at two decimals, matching Python's documented
  rounding mode.
* A candidate resource dict is modelled as a `Resource` record with the
  fields every fetcher-produced dict carries (`type`, `title`, `link`,
  `raw_text`, `source`) plus an optional `score` entry, which is absent
  (`none`) until the evaluation engine writes it.
* `rapidfuzz.fuzz.partial_ratio` is an external library function (not part
  of this repository); it is modelled as an abstract parameter
  `fuzz : String → String → ℚ` whose documented contract is a result in
  `[0, 100]`.  Theorems that need that contract take it as a hypothesis.
  `fuzzZero` is a fixed instance used to evaluate the pipeline on concrete
  inputs whose outcome does not depend on the similarity values.
* Python's `in` on strings is exact substring containment (`strContainsB`);
  `re.findall(r'\b\w+\b', s)` extracts the maximal runs of word characters
  (`wordTokens`, with `\w` modelled as ASCII alphanumeric or underscore).
* `asyncio.gather(*tasks, return_exceptions=True)` yields one
  result-or-exception per fetcher task in task order; this is modelled by
  giving the orchestration function the list of per-fetcher outcomes as
  `List (Except Unit (List Resource))`.
* Exception control flow is modelled by `Except`: the endpoint's
  `raise HTTPException(400)` lands in the blanket `except Exception`
  handler, which re-raises status 500, so the modelled endpoint is the
  composition `scrape_resources` of the inner body `scrapeInner` with that
  handler.
-/

namespace Scraper

/-- A candidate resource record, as produced by the fetcher agents:
`{"type": ..., "title": ..., "link": ..., "raw_text": ..., "source": ...}`,
plus the optional `"score"` entry that `EvaluationAgent.evaluate` writes. -/
structure Resource where
  type : String
  title : String
  link : String
  raw_text : String
  source : String
  score : Option ℚ
deriving DecidableEq

/-- Python's `str.lower()` (character-wise lowering; `String.toLower`
written over the character list so that it evaluates by reduction). -/
def toLowerStr (s : String) : String := String.mk (s.toList.map Char.toLower)

/-- Python's substring test `needle in hay` on strings. -/
def strContainsB (hay needle : String) : Bool :=
  hay.toList.tails.any (fun t => needle.toList.isPrefixOf t)

/-- A word character, modelling `\w` of `re` (ASCII fragment). -/
def isWordChar (c : Char) : Bool := c.isAlphanum || c = '_'

/-- Accumulator-passing scanner splitting a character list into maximal runs
of word characters (the accumulator holds the current run reversed). -/
def wordTokensGo : List Char → List Char → List String
  | [], cur => if cur.isEmpty then [] else [String.mk cur.reverse]
  | c :: cs, cur =>
    if isWordChar c then wordTokensGo cs (c :: cur)
    else if cur.isEmpty then wordTokensGo cs []
    else String.mk cur.reverse :: wordTokensGo cs []

/-- `re.findall(r'\b\w+\b', s)`: the maximal runs of word characters of `s`. -/
def wordTokens (s : String) : List String := wordTokensGo s.toList []

/-- `EvaluationAgent.min_score_threshold`. -/
def min_score_threshold : ℚ := 4/10

/-- `EvaluationAgent.max_results_per_category`. -/
def max_results_per_category : ℕ := 5

/-- `EvaluationAgent.source_credibility`: the static source reputation
table, in insertion order. -/
def source_credibility : List (String × ℚ) :=
  [("wikipedia", 1), ("mdn", 95/100), ("oracle", 9/10), ("tensorflow", 9/10),
   ("pytorch", 9/10), ("scikit-learn", 9/10), ("pandas", 9/10), ("numpy", 9/10),
   ("spring", 9/10), ("django", 9/10), ("fastapi", 9/10), ("react", 9/10),
   ("node.js", 9/10), ("tutorialspoint", 8/10), ("geeksforgeeks", 8/10),
   ("w3schools", 8/10), ("freecodecamp", 8/10), ("edx", 85/100),
   ("coursera", 85/100), ("youtube", 7/10), ("vimeo", 7/10),
   ("hashnode", 75/100), ("dev.to", 75/100), ("medium", 7/10),
   ("personal_blog", 6/10), ("blogspot", 6/10), ("wordpress", 6/10),
   ("tumblr", 5/10)]

/-- `self.source_credibility.get(source, 0.5)`. -/
def credLookup (source : String) : ℚ :=
  ((source_credibility.find? (fun p => p.1 == source)).map Prod.snd).getD (1/2)

/-- `EvaluationAgent.level_keywords`; `self.level_keywords.get(lvl, [])`. -/
def level_keywords (lvl : String) : List String :=
  if lvl = "beginner" then
    ["beginner", "basic", "intro", "introduction", "getting started", "learn",
     "tutorial", "guide", "simple", "easy"]
  else if lvl = "intermediate" then
    ["intermediate", "advanced", "deep dive", "comprehensive", "detailed",
     "expert", "professional", "production"]
  else if lvl = "advanced" then
    ["advanced", "expert", "master", "professional", "production",
     "enterprise", "optimization", "performance"]
  else []

/-- `EvaluationAgent._calculate_relevance_score`.  `fuzz` stands for
`rapidfuzz.fuzz.partial_ratio`.  When the topic has no word tokens the
Python code raises `ZeroDivisionError` at `title_score / len(topic_keywords)`,
which its own `except` catches, returning `0.0`; that is the
`topic_keywords.length = 0` branch here. -/
def calculate_relevance_score (fuzz : String → String → ℚ)
    (resource : Resource) (topic : String) : ℚ :=
  let title := toLowerStr resource.title
  let raw_text := toLowerStr resource.raw_text
  let topic_lower := toLowerStr topic
  let topic_keywords := wordTokens topic_lower
  let title_score : ℚ := topic_keywords.foldl
    (fun acc keyword =>
      if strContainsB title keyword then
        if keyword = title ∨
            strContainsB (" " ++ title ++ " ") (" " ++ keyword ++ " ") then
          acc + 1
        else acc + 7/10
      else acc) 0
  let content_score : ℚ := topic_keywords.foldl
    (fun acc keyword =>
      if strContainsB raw_text keyword then acc + 1/2 else acc) 0
  let title_fuzzy : ℚ := fuzz topic_lower title / 100
  let content_fuzzy : ℚ := fuzz topic_lower raw_text / 100
  if topic_keywords.length = 0 then 0
  else
    min ((title_score / (topic_keywords.length : ℚ)) * (6/10) +
         (content_score / (topic_keywords.length : ℚ)) * (2/10) +
         title_fuzzy * (1/10) + content_fuzzy * (1/10)) 1

/-- `EvaluationAgent._calculate_content_depth_score`.  The two sequential
in-place adjustments (`base_score += 0.2`, `base_score -= 0.3`) are written
as added/subtracted amounts. -/
def calculate_content_depth_score (resource : Resource) (level : String) : ℚ :=
  let title := toLowerStr resource.title
  let raw_text := toLowerStr resource.raw_text
  let level_lower := toLowerStr level
  let kws := level_keywords level_lower
  let level_indicators : ℕ :=
    (kws.filter (fun k => strContainsB title k || strContainsB raw_text k)).length
  let total_checks : ℕ := kws.length
  let base_score : ℚ :=
    if 0 < total_checks then (level_indicators : ℚ) / (total_checks : ℚ)
    else 1/2
  let bonus : ℚ :=
    if level_lower = "beginner" then
      if ["tutorial", "guide", "learn", "intro"].any (strContainsB title)
      then 2/10 else 0
    else if level_lower = "intermediate" then
      if ["advanced", "deep", "comprehensive"].any (strContainsB title)
      then 2/10 else 0
    else if level_lower = "advanced" then
      if ["expert", "master", "professional"].any (strContainsB title)
      then 2/10 else 0
    else 0
  let penalty : ℚ :=
    if level_lower = "beginner" then
      if ["expert", "advanced", "master"].any (strContainsB title)
      then 3/10 else 0
    else if level_lower = "advanced" then
      if ["beginner", "intro", "basic"].any (strContainsB title)
      then 3/10 else 0
    else 0
  max 0 (min (base_score + bonus - penalty) 1)

/-- `EvaluationAgent._calculate_credibility_score`: table lookup, then the
`if`/`elif` chain of link-pattern overrides, each only raising the score. -/
def calculate_credibility_score (resource : Resource) : ℚ :=
  let source := toLowerStr resource.source
  let link := toLowerStr resource.link
  let source_score := credLookup source
  if strContainsB link "wikipedia.org" then max source_score 1
  else if strContainsB link "github.com" then max source_score (8/10)
  else if strContainsB link "stackoverflow.com" then max source_score (8/10)
  else if strContainsB link "docs." then max source_score (9/10)
  else if strContainsB link "tutorial" then max source_score (7/10)
  else source_score

/-- Round-half-to-even to an integer, the mode of Python's `round`. -/
def roundHalfEven (x : ℚ) : ℤ :=
  let f := ⌊x⌋
  let r := x - f
  if r < 1/2 then f
  else if 1/2 < r then f + 1
  else if f % 2 = 0 then f else f + 1

/-- Python's `round(x, 2)`. -/
def round2 (x : ℚ) : ℚ := (roundHalfEven (100 * x) : ℚ) / 100

/-- The unrounded weighted final score of `EvaluationAgent.evaluate`:
`relevance * 0.4 + content_depth * 0.3 + credibility * 0.3`. -/
def final_score (fuzz : String → String → ℚ) (topic level : String)
    (r : Resource) : ℚ :=
  calculate_relevance_score fuzz r topic * (4/10) +
  calculate_content_depth_score r level * (3/10) +
  calculate_credibility_score r * (3/10)

/-- `resource['score'] = q`: the in-place dict write, as a record update. -/
def setScore (r : Resource) (q : ℚ) : Resource :=
  ⟨r.type, r.title, r.link, r.raw_text, r.source, some q⟩

/-- The post-state of one candidate record after `EvaluationAgent.evaluate`
has processed it: line `resource['score'] = round(final_score, 2)` runs for
every candidate (kept or dropped), mutating the caller's dict in place. -/
def evaluatePostState (fuzz : String → String → ℚ) (topic level : String)
    (r : Resource) : Resource :=
  setScore r (round2 (final_score fuzz topic level r))

/-- The sort key `lambda x: x['score']` (every sorted record has the
`score` entry by then). -/
def keyScore (r : Resource) : ℚ := r.score.getD 0

/-- The ordering of `list.sort(key=lambda x: x['score'], reverse=True)`:
`a` may precede `b` when its key is not smaller. -/
def scoreRel (a b : Resource) : Prop := keyScore b ≤ keyScore a

instance : DecidableRel scoreRel :=
  fun a b => inferInstanceAs (Decidable (keyScore b ≤ keyScore a))

instance : IsTotal Resource scoreRel :=
  ⟨fun a b => le_total (keyScore b) (keyScore a)⟩

instance : IsTrans Resource scoreRel :=
  ⟨fun _ _ _ hab hbc => le_trans hbc hab⟩

/-- Python's stable `list.sort(key=lambda x: x['score'], reverse=True)`,
modelled as a stable insertion sort by descending score. -/
def sortDesc (l : List Resource) : List Resource := l.insertionSort scoreRel

/-- One step of building the `by_type` dict of
`EvaluationAgent._filter_by_category` (a dict keyed by `resource['type']`,
in insertion order, each key mapping to the list of its resources in
arrival order). -/
def addToGroups : List (String × List Resource) → Resource →
    List (String × List Resource)
  | [], r => [(r.type, [r])]
  | g :: gs, r =>
    if g.1 = r.type then (g.1, g.2 ++ [r]) :: gs else g :: addToGroups gs r

/-- The `by_type` dict, as an ordered association list. -/
def groupByType (rs : List Resource) : List (String × List Resource) :=
  rs.foldl addToGroups []

/-- `EvaluationAgent._filter_by_category`: group by `type`, sort each group
by score descending, keep the top `max_results_per_category`, concatenate,
and sort the result by score descending. -/
def filter_by_category (resources : List Resource) : List Resource :=
  sortDesc (((groupByType resources).map
    (fun g => (sortDesc g.2).take max_results_per_category)).flatten)

/-- The loop body of `EvaluationAgent.evaluate` for one candidate: compute
the final score, store its rounded value on the record, and keep the record
only when the unrounded score reaches the threshold. -/
def scoreStep (fuzz : String → String → ℚ) (topic level : String)
    (resource : Resource) : Option Resource :=
  let fs := final_score fuzz topic level resource
  if min_score_threshold ≤ fs then some (setScore resource (round2 fs))
  else none

/-- `EvaluationAgent.evaluate`: score every candidate, store the rounded
score on it, keep those with unrounded final score at or above the
threshold, sort descending, then apply the per-category cap. -/
def evaluate (fuzz : String → String → ℚ) (resources : List Resource)
    (topic level : String) : List Resource :=
  filter_by_category
    (sortDesc (resources.filterMap (scoreStep fuzz topic level)))

/-- The per-agent URL dedup loop (`ArticlesAgent.scrape` lines 53-62 and
its copies in the other agents), with the `seen_urls` set accumulated. -/
def dedupGo (seen : List String) : List Resource → List Resource
  | [] => []
  | r :: rest =>
    if seen.contains r.link then dedupGo seen rest
    else r :: dedupGo (r.link :: seen) rest

/-- "Remove duplicates based on URL" inside one fetcher agent. -/
def dedup_by_link (resources : List Resource) : List Resource :=
  dedupGo [] resources

/-- `valid_levels` of `scrape_resources`. -/
def valid_levels : List String := ["beginner", "intermediate", "advanced"]

/-- One entry of the response `resources` list
(`Resource(type=..., title=..., link=..., score=...)` in `main.py`). -/
structure ResourceOut where
  type : String
  title : String
  link : String
  score : ℚ
deriving DecidableEq

/-- `ScrapeResponse(content=..., resources=...)`. -/
structure ScrapeResponse where
  content : String
  resources : List ResourceOut
deriving DecidableEq

/-- The merge loop of `scrape_resources`: walk the `asyncio.gather`
results in task order, skip entries that are exceptions, and extend
`all_resources` with the rest.  No deduplication happens here. -/
def combineResults (results : List (Except Unit (List Resource))) :
    List Resource :=
  results.foldl
    (fun acc r => match r with | .error _ => acc | .ok l => acc ++ l) []

/-- The body of the `try` block of `scrape_resources`: validate the level
(raising 400, modelled as `.error 400`), fan out (the per-fetcher outcomes
arrive as `results`), merge, evaluate, and shape the response.  The
response rebuilds each resource from its `type`/`title`/`link`/`score`
entries (`score` is present on every evaluated resource). -/
def scrapeInner (fuzz : String → String → ℚ) (topic level : String)
    (results : List (Except Unit (List Resource))) :
    Except ℕ ScrapeResponse :=
  if (valid_levels.contains (toLowerStr level)) = false then .error 400
  else
    let all_resources := combineResults results
    let evaluated := evaluate fuzz all_resources topic level
    .ok ⟨"Learning resources for " ++ topic ++ " at " ++ level ++ " level",
         evaluated.map (fun r => ⟨r.type, r.title, r.link, keyScore r⟩)⟩

/-- The `scrape_resources` endpoint: its blanket `except Exception`
handler catches every exception raised in the body — including the 400
`HTTPException` of the level check — and re-raises
`HTTPException(status_code=500)`. -/
def scrape_resources (fuzz : String → String → ℚ) (topic level : String)
    (results : List (Except Unit (List Resource))) :
    Except ℕ ScrapeResponse :=
  match scrapeInner fuzz topic level results with
  | .error _ => .error 500
  | .ok v => .ok v

/-- A fixed instance of the abstract similarity function, used to run the
pipeline on concrete inputs whose outcome does not depend on the
similarity values (topics without word tokens make the relevance score 0
before the fuzzy terms matter). -/
def fuzzZero : String → String → ℚ := fun _ _ => 0

/-- Title for the concrete sample candidates: it packs many beginner-level
keywords so the depth score is maximal (8 of 10 keywords plus the bonus).
Used with the topic "!!!", which has no word tokens, relevance is 0
whatever the similarity function returns, so each sample candidate's
final score is exactly 0·0.4 + 1·0.3 + 1·0.3 = 0.6 (source wikipedia). -/
def demoTitle : String := "beginner basic intro learn tutorial guide simple easy"

/-- Sample candidate: category article, first discovered. -/
def cand1 : Resource := ⟨"article", demoTitle, "l1", "", "wikipedia", none⟩

/-- Sample candidate: category doc, second discovered. -/
def cand2 : Resource := ⟨"doc", demoTitle, "l2", "", "wikipedia", none⟩

/-- Sample candidate: category article, third discovered. -/
def cand3 : Resource := ⟨"article", demoTitle, "l3", "", "wikipedia", none⟩

/-- Sample candidate from one fetcher, link "L". -/
def resA : Resource := ⟨"article", "a", "L", "", "s1", none⟩

/-- Sample candidate from another fetcher, same link "L". -/
def resB : Resource := ⟨"doc", "b", "L", "", "s2", none⟩

/-- Sample candidate whose link matches both the code-hosting pattern
(`github.com`) and the official-docs pattern (`docs.`), from an unknown
source (table default 0.5). -/
def rDocs : Resource := ⟨"doc", "t", "github.com/docs.python/x", "", "unknownsrc", none⟩

/-- Sample candidate whose link contains the encyclopedia domain. -/
def rWiki : Resource := ⟨"article", "t", "https://en.wikipedia.org/wiki/X", "", "srcless", none⟩

end Scraper

namespace Scraper

/- ------------------------------------------------------------------ -/
/- Helper lemmas                                                       -/
/- ------------------------------------------------------------------ -/

theorem combine_foldl (results : List (Except Unit (List Resource)))
    (acc : List Resource) :
    results.foldl
        (fun acc r => match r with | .error _ => acc | .ok l => acc ++ l) acc
      = acc ++ (results.filterMap Except.toOption).flatten := by
  induction results generalizing acc with
  | nil => simp
  | cons x xs ih =>
    cases x with
    | error e => simpa [Except.toOption] using ih acc
    | ok l => simp [Except.toOption, ih (acc ++ l), List.append_assoc]

theorem combineResults_eq (results : List (Except Unit (List Resource))) :
    combineResults results = (results.filterMap Except.toOption).flatten := by
  simpa using combine_foldl results []

theorem evaluate_nil (fuzz : String → String → ℚ) (topic level : String) :
    evaluate fuzz [] topic level = [] := rfl

theorem dedupGo_not_seen (rs : List Resource) :
    ∀ (seen : List String) (r' : Resource), r' ∈ dedupGo seen rs →
      seen.contains r'.link = false := by
  induction rs with
  | nil => intro seen r' h; simp [dedupGo] at h
  | cons r rest ih =>
    intro seen r' h
    by_cases hc : seen.contains r.link
    · rw [dedupGo, if_pos hc] at h
      exact ih seen r' h
    · rw [dedupGo, if_neg hc] at h
      rcases List.mem_cons.1 h with h | h
      · subst h; exact Bool.eq_false_iff.2 hc
      · have := ih (r.link :: seen) r' h
        rw [List.contains_cons] at this
        exact (Bool.or_eq_false_iff.1 this).2

theorem dedupGo_links_nodup (rs : List Resource) :
    ∀ seen : List String,
      ((dedupGo seen rs).map (fun r => r.link)).Nodup := by
  induction rs with
  | nil => intro seen; simp [dedupGo]
  | cons r rest ih =>
    intro seen
    by_cases hc : seen.contains r.link
    · rw [dedupGo, if_pos hc]; exact ih seen
    · rw [dedupGo, if_neg hc]
      rw [List.map_cons, List.nodup_cons]
      refine ⟨?_, ih (r.link :: seen)⟩
      intro hmem
      rcases List.mem_map.1 hmem with ⟨r', hr', hl⟩
      have := dedupGo_not_seen rest (r.link :: seen) r' hr'
      rw [List.contains_cons, hl] at this
      simp at this

theorem dedupGo_sublist (rs : List Resource) :
    ∀ seen : List String, (dedupGo seen rs).Sublist rs := by
  induction rs with
  | nil => intro seen; simp [dedupGo]
  | cons r rest ih =>
    intro seen
    by_cases hc : seen.contains r.link
    · rw [dedupGo, if_pos hc]; exact (ih seen).cons r
    · rw [dedupGo, if_neg hc]; exact (ih (r.link :: seen)).cons₂ r

theorem dedupGo_find (rs : List Resource) :
    ∀ (seen : List String) (lnk : String), seen.contains lnk = false →
      (dedupGo seen rs).find? (fun r => r.link == lnk)
        = rs.find? (fun r => r.link == lnk) := by
  induction rs with
  | nil => intro seen lnk _; simp [dedupGo]
  | cons r rest ih =>
    intro seen lnk h
    by_cases hc : seen.contains r.link
    · rw [dedupGo, if_pos hc]
      have hne : ¬((fun x => x.link == lnk) r = true) := by
        simp only [beq_iff_eq]
        intro he
        rw [he] at hc
        rw [h] at hc
        exact Bool.false_ne_true hc
      rw [@List.find?_cons_of_neg _ (fun x => x.link == lnk) r rest hne]
      exact ih seen lnk h
    · rw [dedupGo, if_neg hc]
      by_cases hm : ((fun x => x.link == lnk) r = true)
      · rw [@List.find?_cons_of_pos _ (fun x => x.link == lnk) r
            (dedupGo (r.link :: seen) rest) hm,
          @List.find?_cons_of_pos _ (fun x => x.link == lnk) r rest hm]
      · rw [@List.find?_cons_of_neg _ (fun x => x.link == lnk) r
            (dedupGo (r.link :: seen) rest) hm,
          @List.find?_cons_of_neg _ (fun x => x.link == lnk) r rest hm]
        apply ih
        rw [List.contains_cons]
        have hne : lnk ≠ r.link := by
          simp only [beq_iff_eq] at hm
          exact fun he => hm he.symm
        rw [Bool.or_eq_false_iff]
        exact ⟨beq_eq_false_iff_ne.2 hne, h⟩

/- ------------------------------------------------------------------ -/
/- Claim theorems                                                      -/
/- ------------------------------------------------------------------ -/

/-- C9 (amended): the evaluation engine leaves the `type`, `title`, `link`,
`raw_text`, and `source` fields of every candidate record untouched, but
it does mutate the record itself: it writes the rounded final score into
the record's `score` entry in place (for every processed candidate, kept
or dropped); no separate derived scored record exists. -/
theorem c9_frame_effect (fuzz : String → String → ℚ) (topic level : String)
    (r : Resource) :
    (evaluatePostState fuzz topic level r).type = r.type ∧
    (evaluatePostState fuzz topic level r).title = r.title ∧
    (evaluatePostState fuzz topic level r).link = r.link ∧
    (evaluatePostState fuzz topic level r).raw_text = r.raw_text ∧
    (evaluatePostState fuzz topic level r).source = r.source ∧
    (evaluatePostState fuzz topic level r).score
      = some (round2 (final_score fuzz topic level r)) :=
  ⟨rfl, rfl, rfl, rfl, rfl, rfl⟩

/-- C7 (amended): a request whose level (compared case-insensitively) is
outside {beginner, intermediate, advanced} is rejected independently of any
fetcher outcome — but the rejection reaches the client as a 500
internal-server error, because the blanket `except` handler swallows the
400 `HTTPException`; an empty topic is not validated at all, and the
request proceeds whenever the level is valid. -/
theorem c7_level_validation (fuzz : String → String → ℚ)
    (topic level : String)
    (results results' : List (Except Unit (List Resource))) :
    ((valid_levels.contains (toLowerStr level)) = false →
      scrape_resources fuzz topic level results = .error 500 ∧
      scrape_resources fuzz topic level results
        = scrape_resources fuzz topic level results') ∧
    ((valid_levels.contains (toLowerStr level)) = true →
      (scrape_resources fuzz "" level results).isOk = true) := by
  constructor
  · intro h
    have e : ∀ res : List (Except Unit (List Resource)),
        scrape_resources fuzz topic level res = .error 500 := by
      intro res
      have e1 : scrapeInner fuzz topic level res = .error 400 := by
        unfold scrapeInner
        rw [if_pos h]
      unfold scrape_resources
      rw [e1]
    exact ⟨e results, (e results).trans (e results').symm⟩
  · intro h
    have hcond : ¬((valid_levels.contains (toLowerStr level)) = false) := by
      rw [h]
      exact fun hf => Bool.noConfusion hf
    unfold scrape_resources scrapeInner
    rw [if_neg hcond]
    rfl

/-- C2: the orchestration never fails because fetchers failed: with a valid
level, the endpoint returns `.ok` built from exactly the successful
fetchers' resources (failed tasks contribute nothing), and when every
fetcher fails it returns a valid response with an empty resource list. -/
theorem c2_failure_isolation (fuzz : String → String → ℚ)
    (topic level : String) (results : List (Except Unit (List Resource)))
    (h : (valid_levels.contains (toLowerStr level)) = true) :
    scrape_resources fuzz topic level results =
      .ok ⟨"Learning resources for " ++ topic ++ " at " ++ level ++ " level",
           (evaluate fuzz ((results.filterMap Except.toOption).flatten)
               topic level).map
             (fun r => ⟨r.type, r.title, r.link, keyScore r⟩)⟩ ∧
    ((∀ x ∈ results, x.toOption = (none : Option (List Resource))) →
      scrape_resources fuzz topic level results =
        .ok ⟨"Learning resources for " ++ topic ++ " at " ++ level ++ " level",
             []⟩) := by
  have hcond : ¬((valid_levels.contains (toLowerStr level)) = false) := by
    rw [h]
    exact fun hf => Bool.noConfusion hf
  have e1 : scrape_resources fuzz topic level results =
      .ok ⟨"Learning resources for " ++ topic ++ " at " ++ level ++ " level",
           (evaluate fuzz ((results.filterMap Except.toOption).flatten)
               topic level).map
             (fun r => ⟨r.type, r.title, r.link, keyScore r⟩)⟩ := by
    unfold scrape_resources scrapeInner
    rw [if_neg hcond, combineResults_eq]
  refine ⟨e1, fun hall => ?_⟩
  have hnil : results.filterMap Except.toOption = [] :=
    List.filterMap_eq_nil_iff.2 hall
  rw [e1, hnil]
  rfl

/-- C1 (amended): deduplication by exact link happens inside each fetcher,
not across fetchers: a single fetcher's returned list has pairwise distinct
links, is a subsequence of its discovered list (discovery order kept), and
keeps for every link exactly the first record bearing it; the cross-fetcher
merge then concatenates the per-fetcher lists without any deduplication. -/
theorem c1_per_fetcher_dedup (rs : List Resource)
    (ls : List (List Resource)) (lnk : String) :
    ((dedup_by_link rs).map (fun r => r.link)).Nodup ∧
    (dedup_by_link rs).Sublist rs ∧
    (dedup_by_link rs).find? (fun r => r.link == lnk)
      = rs.find? (fun r => r.link == lnk) ∧
    combineResults (ls.map Except.ok) = ls.flatten := by
  refine ⟨dedupGo_links_nodup rs [], dedupGo_sublist rs [],
    dedupGo_find rs [] lnk rfl, ?_⟩
  rw [combineResults_eq, List.filterMap_map]
  have : (Except.toOption ∘ (Except.ok : List Resource → Except Unit _))
      = some := rfl
  rw [this, List.filterMap_some]

/-- C8 (amended): the link-pattern overrides never lower the table score,
and they are applied as a first-match `elif` chain in the priority order
encyclopedia > code-hosting > Q&A > official-docs > tutorial.  The
encyclopedia (≥ 1.0), code-hosting (≥ 0.8), Q&A (≥ 0.8) and tutorial
(≥ 0.7) floors hold whenever their pattern is present, but the
official-docs floor (≥ 0.9) is only guaranteed when neither `github.com`
nor `stackoverflow.com` also occurs in the link. -/
theorem c8_credibility_overrides (r : Resource) :
    credLookup (toLowerStr r.source) ≤ calculate_credibility_score r ∧
    (strContainsB (toLowerStr r.link) "wikipedia.org" = true →
      1 ≤ calculate_credibility_score r) ∧
    (strContainsB (toLowerStr r.link) "github.com" = true →
      8/10 ≤ calculate_credibility_score r) ∧
    (strContainsB (toLowerStr r.link) "stackoverflow.com" = true →
      8/10 ≤ calculate_credibility_score r) ∧
    (strContainsB (toLowerStr r.link) "docs." = true →
      strContainsB (toLowerStr r.link) "github.com" = false →
      strContainsB (toLowerStr r.link) "stackoverflow.com" = false →
      9/10 ≤ calculate_credibility_score r) ∧
    (strContainsB (toLowerStr r.link) "tutorial" = true →
      7/10 ≤ calculate_credibility_score r) := by
  simp only [calculate_credibility_score]
  split_ifs with h1 h2 h3 h4 h5
  · exact ⟨le_max_left _ _, fun _ => le_max_right _ _,
      fun _ => le_trans (by norm_num) (le_max_right _ _),
      fun _ => le_trans (by norm_num) (le_max_right _ _),
      fun _ _ _ => le_trans (by norm_num) (le_max_right _ _),
      fun _ => le_trans (by norm_num) (le_max_right _ _)⟩
  · exact ⟨le_max_left _ _, fun hw => absurd hw h1,
      fun _ => le_max_right _ _, fun _ => le_max_right _ _,
      fun _ hg _ => absurd h2 (by rw [hg]; exact Bool.noConfusion),
      fun _ => le_trans (by norm_num) (le_max_right _ _)⟩
  · exact ⟨le_max_left _ _, fun hw => absurd hw h1,
      fun hg => absurd hg h2, fun _ => le_max_right _ _,
      fun _ _ hs => absurd h3 (by rw [hs]; exact Bool.noConfusion),
      fun _ => le_trans (by norm_num) (le_max_right _ _)⟩
  · exact ⟨le_max_left _ _, fun hw => absurd hw h1,
      fun hg => absurd hg h2, fun hs => absurd hs h3,
      fun _ _ _ => le_max_right _ _,
      fun _ => le_trans (by norm_num) (le_max_right _ _)⟩
  · exact ⟨le_max_left _ _, fun hw => absurd hw h1,
      fun hg => absurd hg h2, fun hs => absurd hs h3,
      fun hd _ _ => absurd hd h4, fun _ => le_max_right _ _⟩
  · exact ⟨le_refl _, fun hw => absurd hw h1,
      fun hg => absurd hg h2, fun hs => absurd hs h3,
      fun hd _ _ => absurd hd h4, fun ht => absurd ht h5⟩

theorem isWordChar_toLower_eq (c : Char) (h : isWordChar c = false) :
    Char.toLower c = c := by
  unfold Char.toLower
  rw [if_neg]
  rintro ⟨h1, h2⟩
  have hu : c.isUpper = true := by
    unfold Char.isUpper
    rw [Bool.and_eq_true, decide_eq_true_iff, decide_eq_true_iff]
    exact ⟨h1, h2⟩
  unfold isWordChar Char.isAlphanum Char.isAlpha at h
  rw [hu] at h
  simp at h

theorem wordTokensGo_all_nonword (l : List Char)
    (h : ∀ c ∈ l, isWordChar c = false) : wordTokensGo l [] = [] := by
  induction l with
  | nil => rfl
  | cons c cs ih =>
    have hc : isWordChar c = false := h c (List.mem_cons_self c cs)
    have hemp : (List.isEmpty ([] : List Char)) = true := rfl
    rw [wordTokensGo,
      if_neg (fun ht => Bool.noConfusion (hc ▸ ht)), if_pos hemp]
    exact ih (fun x hx => h x (List.mem_cons_of_mem _ hx))

theorem wordTokens_eq_nil (topic : String)
    (h : topic.toList.all (fun c => !(isWordChar c)) = true) :
    wordTokens (toLowerStr topic) = [] := by
  unfold wordTokens toLowerStr
  apply wordTokensGo_all_nonword
  intro c hc
  rw [show (String.mk (topic.toList.map Char.toLower)).toList
      = topic.toList.map Char.toLower from rfl] at hc
  obtain ⟨c0, hc0, rfl⟩ := List.mem_map.1 hc
  have h0 : isWordChar c0 = false := by
    have := List.all_eq_true.1 h c0 hc0
    simpa using this
  rw [isWordChar_toLower_eq c0 h0]
  exact h0

/-- C10: for a topic with no word characters the tokenizer produces no
tokens, the Python division by the token count raises, the error is caught
inside `_calculate_relevance_score`, and the relevance score is 0; scoring
therefore completes normally, the final score degenerating to the depth
and credibility contributions. -/
theorem c10_tokenless_topic (fuzz : String → String → ℚ) (topic : String)
    (h : topic.toList.all (fun c => !(isWordChar c)) = true)
    (r : Resource) (level : String) :
    calculate_relevance_score fuzz r topic = 0 ∧
    final_score fuzz topic level r =
      calculate_content_depth_score r level * (3/10) +
      calculate_credibility_score r * (3/10) := by
  have h4 : wordTokens (toLowerStr topic) = [] := wordTokens_eq_nil topic h
  have hrel : calculate_relevance_score fuzz r topic = 0 := by
    simp only [calculate_relevance_score, h4]
    norm_num
  refine ⟨hrel, ?_⟩
  unfold final_score
  rw [hrel]
  ring

theorem foldl_mono_of_step_mono (f : ℚ → String → ℚ)
    (hf : ∀ a k, a ≤ f a k) :
    ∀ (l : List String) (acc : ℚ), acc ≤ l.foldl f acc := by
  intro l
  induction l with
  | nil => intro acc; exact le_refl acc
  | cons k ks ih => intro acc; exact le_trans (hf acc k) (ih (f acc k))

theorem relevance_bounds (fuzz : String → String → ℚ)
    (hf : ∀ a b, 0 ≤ fuzz a b) (r : Resource) (topic : String) :
    0 ≤ calculate_relevance_score fuzz r topic ∧
    calculate_relevance_score fuzz r topic ≤ 1 := by
  simp only [calculate_relevance_score]
  split_ifs with hlen
  · exact ⟨le_refl 0, by norm_num⟩
  · constructor
    · refine le_min (add_nonneg (add_nonneg (add_nonneg ?_ ?_) ?_) ?_)
        zero_le_one
      · refine mul_nonneg (div_nonneg ?_ (Nat.cast_nonneg _)) (by norm_num)
        refine foldl_mono_of_step_mono _ ?_ _ 0
        intro a k
        split_ifs <;> linarith
      · refine mul_nonneg (div_nonneg ?_ (Nat.cast_nonneg _)) (by norm_num)
        refine foldl_mono_of_step_mono _ ?_ _ 0
        intro a k
        split_ifs <;> linarith
      · exact mul_nonneg (div_nonneg (hf _ _) (by norm_num)) (by norm_num)
      · exact mul_nonneg (div_nonneg (hf _ _) (by norm_num)) (by norm_num)
    · exact min_le_right _ 1

theorem depth_bounds (r : Resource) (level : String) :
    0 ≤ calculate_content_depth_score r level ∧
    calculate_content_depth_score r level ≤ 1 := by
  simp only [calculate_content_depth_score]
  refine ⟨le_max_left 0 _, max_le (by norm_num) (min_le_right _ 1)⟩

set_option maxHeartbeats 1000000 in
theorem credLookup_bounds (s : String) :
    0 ≤ credLookup s ∧ credLookup s ≤ 1 := by
  have htab : ∀ q ∈ source_credibility, 0 ≤ q.2 ∧ q.2 ≤ 1 := by
    intro q hq
    fin_cases hq <;> norm_num
  unfold credLookup
  cases hfind : source_credibility.find? (fun p => p.1 == s) with
  | none => norm_num
  | some p =>
    have hmem := List.mem_of_find?_eq_some hfind
    exact htab p hmem

theorem credibility_bounds (r : Resource) :
    0 ≤ calculate_credibility_score r ∧
    calculate_credibility_score r ≤ 1 := by
  obtain ⟨h0, h1⟩ := credLookup_bounds (toLowerStr r.source)
  simp only [calculate_credibility_score]
  split_ifs with hw hg hs hd ht
  · exact ⟨le_trans h0 (le_max_left _ _), max_le h1 (by norm_num)⟩
  · exact ⟨le_trans h0 (le_max_left _ _), max_le h1 (by norm_num)⟩
  · exact ⟨le_trans h0 (le_max_left _ _), max_le h1 (by norm_num)⟩
  · exact ⟨le_trans h0 (le_max_left _ _), max_le h1 (by norm_num)⟩
  · exact ⟨le_trans h0 (le_max_left _ _), max_le h1 (by norm_num)⟩
  · exact ⟨h0, h1⟩

theorem roundHalfEven_bounds (y : ℚ) (lo hi : ℤ)
    (h0 : (lo:ℚ) ≤ y) (h1 : y ≤ (hi:ℚ)) :
    lo ≤ roundHalfEven y ∧ roundHalfEven y ≤ hi := by
  have hfl : lo ≤ ⌊y⌋ := Int.le_floor.2 h0
  have hfu : (⌊y⌋ : ℚ) ≤ y := Int.floor_le y
  have hhi : ⌊y⌋ ≤ hi := by
    have := Int.floor_le_floor h1
    rwa [Int.floor_intCast] at this
  simp only [roundHalfEven]
  split_ifs with hr1 hr2 hpar
  · exact ⟨hfl, hhi⟩
  · have hlt : (⌊y⌋ : ℚ) < (hi : ℚ) := by linarith
    have : ⌊y⌋ < hi := by exact_mod_cast hlt
    exact ⟨le_trans hfl (by omega), by omega⟩
  · exact ⟨hfl, hhi⟩
  · have hr : y - ⌊y⌋ = 1/2 := le_antisymm (not_lt.1 hr2) (not_lt.1 hr1)
    have hlt : (⌊y⌋ : ℚ) < (hi : ℚ) := by
      by_contra hge
      push_neg at hge
      have : (hi : ℚ) = ⌊y⌋ := le_antisymm hge (by exact_mod_cast hhi)
      rw [← this] at hr hfu
      linarith
    have : ⌊y⌋ < hi := by exact_mod_cast hlt
    exact ⟨le_trans hfl (by omega), by omega⟩

theorem round2_bounds (x : ℚ) (h0 : 0 ≤ x) (h1 : x ≤ 1) :
    0 ≤ round2 x ∧ round2 x ≤ 1 := by
  obtain ⟨hl, hu⟩ := roundHalfEven_bounds (100 * x) 0 100
    (by push_cast; linarith) (by push_cast; linarith)
  unfold round2
  constructor
  · apply div_nonneg _ (by norm_num)
    exact_mod_cast hl
  · rw [div_le_one (by norm_num)]
    exact_mod_cast hu

/-- C6: every score is in [0,1]: the relevance score (given the similarity
function's documented [0,100] range), the content-depth score (bonus and
penalty included, thanks to the final clamp), the credibility score, the
weighted final score, and the rounded final score stored on the record. -/
theorem c6_score_ranges (fuzz : String → String → ℚ)
    (hf : ∀ a b, 0 ≤ fuzz a b ∧ fuzz a b ≤ 100)
    (r : Resource) (topic level : String) :
    (0 ≤ calculate_relevance_score fuzz r topic ∧
      calculate_relevance_score fuzz r topic ≤ 1) ∧
    (0 ≤ calculate_content_depth_score r level ∧
      calculate_content_depth_score r level ≤ 1) ∧
    (0 ≤ calculate_credibility_score r ∧
      calculate_credibility_score r ≤ 1) ∧
    (0 ≤ final_score fuzz topic level r ∧
      final_score fuzz topic level r ≤ 1) ∧
    (0 ≤ round2 (final_score fuzz topic level r) ∧
      round2 (final_score fuzz topic level r) ≤ 1) := by
  obtain ⟨hr0, hr1⟩ := relevance_bounds fuzz (fun a b => (hf a b).1) r topic
  obtain ⟨hd0, hd1⟩ := depth_bounds r level
  obtain ⟨hc0, hc1⟩ := credibility_bounds r
  have hfin : 0 ≤ final_score fuzz topic level r ∧
      final_score fuzz topic level r ≤ 1 := by
    unfold final_score
    constructor <;> nlinarith
  exact ⟨⟨hr0, hr1⟩, ⟨hd0, hd1⟩, ⟨hc0, hc1⟩, hfin,
    round2_bounds _ hfin.1 hfin.2⟩

theorem sortDesc_perm (l : List Resource) : (sortDesc l).Perm l :=
  List.perm_insertionSort scoreRel l

theorem addToGroups_typed (r : Resource) :
    ∀ gs : List (String × List Resource),
      (∀ g ∈ gs, ∀ x ∈ g.2, x.type = g.1) →
      ∀ g ∈ addToGroups gs r, ∀ x ∈ g.2, x.type = g.1 := by
  intro gs
  induction gs with
  | nil =>
    intro _ g hg x hx
    rw [addToGroups] at hg
    have hg' := List.mem_singleton.1 hg
    subst hg'
    have hx' := List.mem_singleton.1 hx
    subst hx'
    rfl
  | cons g0 gs ih =>
    intro h g hg x hx
    rw [addToGroups] at hg
    by_cases he : g0.1 = r.type
    · rw [if_pos he] at hg
      rcases List.mem_cons.1 hg with rfl | hg'
      · rcases List.mem_append.1 hx with hx' | hx'
        · exact h g0 (List.mem_cons_self _ _) x hx'
        · have := List.mem_singleton.1 hx'
          subst this
          exact he.symm
      · exact h g (List.mem_cons_of_mem _ hg') x hx
    · rw [if_neg he] at hg
      rcases List.mem_cons.1 hg with rfl | hg'
      · exact h g (List.mem_cons_self _ _) x hx
      · exact ih (fun g' hg'' => h g' (List.mem_cons_of_mem _ hg'')) g hg' x hx

theorem addToGroups_keys (r : Resource) :
    ∀ (gs : List (String × List Resource)) (k : String),
      k ∈ (addToGroups gs r).map Prod.fst →
      k ∈ gs.map Prod.fst ∨ k = r.type := by
  intro gs
  induction gs with
  | nil =>
    intro k hk
    rw [addToGroups] at hk
    right
    simpa using hk
  | cons g0 gs ih =>
    intro k hk
    rw [addToGroups] at hk
    by_cases he : g0.1 = r.type
    · rw [if_pos he, List.map_cons] at hk
      rcases List.mem_cons.1 hk with rfl | hk'
      · left; rw [List.map_cons]; exact List.mem_cons_self _ _
      · left; rw [List.map_cons]; exact List.mem_cons_of_mem _ hk'
    · rw [if_neg he, List.map_cons] at hk
      rcases List.mem_cons.1 hk with rfl | hk'
      · left; rw [List.map_cons]; exact List.mem_cons_self _ _
      · rcases ih k hk' with h | h
        · left; rw [List.map_cons]; exact List.mem_cons_of_mem _ h
        · right; exact h

theorem addToGroups_keys_nodup (r : Resource) :
    ∀ gs : List (String × List Resource),
      (gs.map Prod.fst).Nodup →
      ((addToGroups gs r).map Prod.fst).Nodup := by
  intro gs
  induction gs with
  | nil => intro _; rw [addToGroups]; simp
  | cons g0 gs ih =>
    intro hn
    rw [List.map_cons, List.nodup_cons] at hn
    obtain ⟨hn1, hn2⟩ := hn
    rw [addToGroups]
    by_cases he : g0.1 = r.type
    · rw [if_pos he, List.map_cons, List.nodup_cons]
      exact ⟨hn1, hn2⟩
    · rw [if_neg he, List.map_cons, List.nodup_cons]
      refine ⟨?_, ih hn2⟩
      intro hmem
      rcases addToGroups_keys r gs g0.1 hmem with h | h
      · exact hn1 h
      · exact he h

theorem addToGroups_flatten_perm (r : Resource) :
    ∀ gs : List (String × List Resource),
      ((addToGroups gs r).map Prod.snd).flatten.Perm
        ((gs.map Prod.snd).flatten ++ [r]) := by
  intro gs
  induction gs with
  | nil =>
    rw [addToGroups]
    exact List.Perm.refl _
  | cons g0 gs ih =>
    rw [addToGroups]
    by_cases he : g0.1 = r.type
    · rw [if_pos he, List.map_cons, List.flatten_cons, List.map_cons,
        List.flatten_cons, List.append_assoc, List.append_assoc]
      exact List.Perm.append_left g0.2 List.perm_append_comm
    · rw [if_neg he, List.map_cons, List.flatten_cons, List.map_cons,
        List.flatten_cons, List.append_assoc]
      exact List.Perm.append_left g0.2 ih

theorem foldl_addToGroups_typed (rs : List Resource) :
    ∀ gs, (∀ g ∈ gs, ∀ x ∈ g.2, x.type = g.1) →
      ∀ g ∈ rs.foldl addToGroups gs, ∀ x ∈ g.2, x.type = g.1 := by
  induction rs with
  | nil => intro gs h; simpa using h
  | cons r rest ih =>
    intro gs h
    rw [List.foldl_cons]
    exact ih _ (addToGroups_typed r gs h)

theorem foldl_addToGroups_nodup (rs : List Resource) :
    ∀ gs, (gs.map Prod.fst).Nodup →
      ((rs.foldl addToGroups gs).map Prod.fst).Nodup := by
  induction rs with
  | nil => intro gs h; simpa using h
  | cons r rest ih =>
    intro gs h
    rw [List.foldl_cons]
    exact ih _ (addToGroups_keys_nodup r gs h)

theorem foldl_addToGroups_perm (rs : List Resource) :
    ∀ gs, ((rs.foldl addToGroups gs).map Prod.snd).flatten.Perm
      ((gs.map Prod.snd).flatten ++ rs) := by
  induction rs with
  | nil => intro gs; simp
  | cons r rest ih =>
    intro gs
    rw [List.foldl_cons]
    refine (ih (addToGroups gs r)).trans ?_
    refine (List.Perm.append_right rest (addToGroups_flatten_perm r gs)).trans ?_
    rw [List.append_assoc, List.singleton_append]

theorem groupByType_typed (rs : List Resource) :
    ∀ g ∈ groupByType rs, ∀ x ∈ g.2, x.type = g.1 :=
  foldl_addToGroups_typed rs []
    (fun g hg => absurd hg (List.not_mem_nil g))

theorem groupByType_keys_nodup (rs : List Resource) :
    ((groupByType rs).map Prod.fst).Nodup :=
  foldl_addToGroups_nodup rs [] (by simp)

theorem groupByType_flatten_perm (rs : List Resource) :
    ((groupByType rs).map Prod.snd).flatten.Perm rs := by
  simpa using foldl_addToGroups_perm rs []

theorem mem_groupByType (r : Resource) (rs : List Resource) (h : r ∈ rs) :
    ∃ l, (r.type, l) ∈ groupByType rs ∧ r ∈ l := by
  have hmem : r ∈ ((groupByType rs).map Prod.snd).flatten :=
    (groupByType_flatten_perm rs).mem_iff.2 h
  rw [List.mem_flatten] at hmem
  obtain ⟨l, hl, hrl⟩ := hmem
  rw [List.mem_map] at hl
  obtain ⟨g, hg, rfl⟩ := hl
  have ht : r.type = g.1 := groupByType_typed rs g hg r hrl
  refine ⟨g.2, ?_, hrl⟩
  rw [ht]
  exact hg

theorem take_sortDesc_mem {x : Resource} {l : List Resource}
    (h : x ∈ (sortDesc l).take max_results_per_category) : x ∈ l :=
  (sortDesc_perm l).mem_iff.1 (List.Sublist.mem h (List.take_sublist _ _))

theorem countP_take_eq_zero {t : String} {g : String × List Resource}
    (hg : ∀ x ∈ g.2, x.type = g.1) (hne : g.1 ≠ t) :
    List.countP (fun x => x.type == t)
      ((sortDesc g.2).take max_results_per_category) = 0 := by
  apply List.countP_eq_zero.2
  intro x hx
  have hxt := hg x (take_sortDesc_mem hx)
  intro he
  rw [beq_iff_eq] at he
  exact hne (hxt ▸ he)

theorem countP_take_le (t : String) (l : List Resource) :
    List.countP (fun x => x.type == t)
        ((sortDesc l).take max_results_per_category)
      ≤ max_results_per_category :=
  le_trans (List.countP_le_length _)
    (by rw [List.length_take]; exact min_le_left _ _)

theorem sum_counts_le (t : String) :
    ∀ gs : List (String × List Resource),
      (∀ g ∈ gs, ∀ x ∈ g.2, x.type = g.1) →
      (gs.map Prod.fst).Nodup →
      ((gs.map (fun g => List.countP (fun x => x.type == t)
          ((sortDesc g.2).take max_results_per_category))).sum)
        ≤ max_results_per_category := by
  intro gs
  induction gs with
  | nil => intro _ _; simp
  | cons g0 gs ih =>
    intro ht hn
    rw [List.map_cons, List.sum_cons]
    rw [List.map_cons, List.nodup_cons] at hn
    obtain ⟨hn1, hn2⟩ := hn
    by_cases he : g0.1 = t
    · have hz : (gs.map (fun g => List.countP (fun x => x.type == t)
          ((sortDesc g.2).take max_results_per_category))).sum = 0 := by
        apply List.sum_eq_zero
        intro v hv
        rw [List.mem_map] at hv
        obtain ⟨g, hg, rfl⟩ := hv
        apply countP_take_eq_zero
          (fun x hx => ht g (List.mem_cons_of_mem _ hg) x hx)
        intro hgt
        have hkey : g0.1 = g.1 := he.trans hgt.symm
        exact hn1 (hkey ▸ List.mem_map_of_mem Prod.fst hg)
      rw [hz]
      have := countP_take_le t g0.2
      omega
    · have hz0 : List.countP (fun x => x.type == t)
          ((sortDesc g0.2).take max_results_per_category) = 0 :=
        countP_take_eq_zero
          (fun x hx => ht g0 (List.mem_cons_self _ _) x hx) he
      rw [hz0, Nat.zero_add]
      exact ih (fun g hg => ht g (List.mem_cons_of_mem _ hg)) hn2

theorem sum_counts_eq (t : String) (l : List Resource) :
    ∀ gs : List (String × List Resource),
      (∀ g ∈ gs, ∀ x ∈ g.2, x.type = g.1) →
      (gs.map Prod.fst).Nodup →
      (t, l) ∈ gs →
      ((gs.map (fun g => List.countP (fun x => x.type == t)
          ((sortDesc g.2).take max_results_per_category))).sum)
        = List.countP (fun x => x.type == t)
            ((sortDesc l).take max_results_per_category) := by
  intro gs
  induction gs with
  | nil => intro _ _ hm; exact absurd hm (List.not_mem_nil _)
  | cons g0 gs ih =>
    intro ht hn hm
    rw [List.map_cons, List.sum_cons]
    rw [List.map_cons, List.nodup_cons] at hn
    obtain ⟨hn1, hn2⟩ := hn
    rcases List.mem_cons.1 hm with rfl | hm'
    · have hz : (gs.map (fun g => List.countP (fun x => x.type == t)
          ((sortDesc g.2).take max_results_per_category))).sum = 0 := by
        apply List.sum_eq_zero
        intro v hv
        rw [List.mem_map] at hv
        obtain ⟨g, hg, rfl⟩ := hv
        apply countP_take_eq_zero
          (fun x hx => ht g (List.mem_cons_of_mem _ hg) x hx)
        intro hgt
        have hk : g.1 ∈ gs.map Prod.fst := List.mem_map_of_mem Prod.fst hg
        rw [hgt] at hk
        exact hn1 hk
      rw [hz, Nat.add_zero]
    · have hne : g0.1 ≠ t := by
        intro he
        apply hn1
        rw [he]
        exact List.mem_map_of_mem Prod.fst hm'
      have hz0 : List.countP (fun x => x.type == t)
          ((sortDesc g0.2).take max_results_per_category) = 0 :=
        countP_take_eq_zero
          (fun x hx => ht g0 (List.mem_cons_self _ _) x hx) hne
      rw [hz0, Nat.zero_add]
      exact ih (fun g hg => ht g (List.mem_cons_of_mem _ hg)) hn2 hm'

theorem countP_evaluate (fuzz : String → String → ℚ)
    (resources : List Resource) (topic level : String)
    (p : Resource → Bool) :
    List.countP p (evaluate fuzz resources topic level)
      = (((groupByType
            (sortDesc (resources.filterMap (scoreStep fuzz topic level)))).map
          (fun g => List.countP p
            ((sortDesc g.2).take max_results_per_category))).sum) := by
  unfold evaluate filter_by_category
  rw [List.Perm.countP_eq p (sortDesc_perm _)]
  rw [List.countP_flatten, List.map_map]
  rfl

/-- C4: in every list returned by the evaluation engine, at most
`max_results_per_category` (= 5) resources of any one category occur. -/
theorem c4_per_category_cap (fuzz : String → String → ℚ)
    (resources : List Resource) (topic level : String) (t : String) :
    List.countP (fun r => r.type == t) (evaluate fuzz resources topic level)
      ≤ max_results_per_category := by
  rw [countP_evaluate]
  exact sum_counts_le t _ (groupByType_typed _) (groupByType_keys_nodup _)

/-- C5 (amended): every list returned by the evaluation engine is sorted
by stored score descending.  (The original claim's tie-breaking clause —
equal scores keep discovery order — fails: ties are only kept in order
within one category; see the counterexample.) -/
theorem c5_sorted_desc (fuzz : String → String → ℚ)
    (resources : List Resource) (topic level : String) :
    (evaluate fuzz resources topic level).Pairwise
      (fun a b => keyScore b ≤ keyScore a) := by
  unfold evaluate filter_by_category sortDesc
  exact List.sorted_insertionSort scoreRel _

theorem final_score_setScore (fuzz : String → String → ℚ)
    (topic level : String) (c : Resource) (q : ℚ) :
    final_score fuzz topic level (setScore c q)
      = final_score fuzz topic level c := rfl

theorem mem_evaluate_elim (fuzz : String → String → ℚ)
    (resources : List Resource) (topic level : String) (r : Resource)
    (h : r ∈ evaluate fuzz resources topic level) :
    ∃ c ∈ resources, min_score_threshold ≤ final_score fuzz topic level c ∧
      r = setScore c (round2 (final_score fuzz topic level c)) := by
  unfold evaluate filter_by_category at h
  have h2 := (sortDesc_perm _).mem_iff.1 h
  rw [List.mem_flatten] at h2
  obtain ⟨l, hl, hrl⟩ := h2
  rw [List.mem_map] at hl
  obtain ⟨g, hg, rfl⟩ := hl
  have h3 : r ∈ g.2 :=
    (sortDesc_perm g.2).mem_iff.1
      (List.Sublist.mem hrl (List.take_sublist _ _))
  have h4 : r ∈ sortDesc (resources.filterMap (scoreStep fuzz topic level)) :=
    (groupByType_flatten_perm _).mem_iff.1
      (List.mem_flatten.2 ⟨g.2, List.mem_map_of_mem Prod.snd hg, h3⟩)
  have h5 : r ∈ resources.filterMap (scoreStep fuzz topic level) :=
    (sortDesc_perm _).mem_iff.1 h4
  rw [List.mem_filterMap] at h5
  obtain ⟨c, hc, hstep⟩ := h5
  simp only [scoreStep] at hstep
  by_cases hth : min_score_threshold ≤ final_score fuzz topic level c
  · rw [if_pos hth] at hstep
    exact ⟨c, hc, hth, (Option.some_inj.1 hstep).symm⟩
  · rw [if_neg hth] at hstep
    exact absurd hstep (by simp)

/-- C3: no resource below the 0.4 threshold survives (every returned
record's recomputed final score is at least the threshold, and its stored
score is that value rounded), and every candidate at or above the
threshold is retained unless its category is full: its scored record is in
the output, or the output already holds exactly
`max_results_per_category` records of its category. -/
theorem c3_threshold_filter (fuzz : String → String → ℚ)
    (resources : List Resource) (topic level : String) :
    (∀ r ∈ evaluate fuzz resources topic level,
      min_score_threshold ≤ final_score fuzz topic level r ∧
      r.score = some (round2 (final_score fuzz topic level r))) ∧
    (∀ c ∈ resources, min_score_threshold ≤ final_score fuzz topic level c →
      setScore c (round2 (final_score fuzz topic level c))
          ∈ evaluate fuzz resources topic level ∨
      List.countP (fun r => r.type == c.type)
          (evaluate fuzz resources topic level)
        = max_results_per_category) := by
  constructor
  · intro r hr
    obtain ⟨c, hc, hth, rfl⟩ :=
      mem_evaluate_elim fuzz resources topic level r hr
    rw [final_score_setScore]
    exact ⟨hth, rfl⟩
  · intro c hc hth
    have h1 : setScore c (round2 (final_score fuzz topic level c))
        ∈ resources.filterMap (scoreStep fuzz topic level) := by
      rw [List.mem_filterMap]
      refine ⟨c, hc, ?_⟩
      simp only [scoreStep]
      rw [if_pos hth]
    have h2 : setScore c (round2 (final_score fuzz topic level c))
        ∈ sortDesc (resources.filterMap (scoreStep fuzz topic level)) :=
      (sortDesc_perm _).mem_iff.2 h1
    obtain ⟨l, hgl, hrl⟩ := mem_groupByType _ _ h2
    by_cases htk : setScore c (round2 (final_score fuzz topic level c))
        ∈ (sortDesc l).take max_results_per_category
    · left
      unfold evaluate filter_by_category
      apply (sortDesc_perm _).mem_iff.2
      apply List.mem_flatten.2
      refine ⟨(sortDesc l).take max_results_per_category, ?_, htk⟩
      exact List.mem_map_of_mem
        (fun g => (sortDesc g.2).take max_results_per_category) hgl
    · right
      have hmem_sorted : setScore c (round2 (final_score fuzz topic level c))
          ∈ sortDesc l := (sortDesc_perm l).mem_iff.2 hrl
      have hlen : max_results_per_category < (sortDesc l).length := by
        by_contra hle
        push_neg at hle
        rw [List.take_of_length_le hle] at htk
        exact htk hmem_sorted
      have htake_len : ((sortDesc l).take max_results_per_category).length
          = max_results_per_category := by
        rw [List.length_take]
        exact min_eq_left (le_of_lt hlen)
      have hall : ∀ x ∈ (sortDesc l).take max_results_per_category,
          (x.type == c.type) = true := by
        intro x hx
        have hx2 : x ∈ l := take_sortDesc_mem hx
        have := groupByType_typed _ _ hgl x hx2
        rw [beq_iff_eq]
        exact this
      have hcount : List.countP (fun x => x.type == c.type)
          ((sortDesc l).take max_results_per_category)
            = max_results_per_category :=
        (List.countP_eq_length.2 hall).trans htake_len
      rw [countP_evaluate]
      rw [sum_counts_eq c.type l _ (groupByType_typed _)
        (groupByType_keys_nodup _) hgl]
      exact hcount

/- ------------------------------------------------------------------ -/
/- Concrete counterexamples and witnesses                              -/
/- The arithmetic of `Rat` is sealed in Batteries; it is reopened      -/
/- locally so that concrete runs of the pipeline evaluate by kernel    -/
/- reduction.                                                          -/
/- ------------------------------------------------------------------ -/

set_option allowUnsafeReducibility true

section

attribute [local semireducible] Rat.add Rat.mul Rat.sub Rat.inv

/-- C1 (counterexample): the same link returned by two different fetchers
is passed to evaluation twice — the merge loop concatenates and does not
deduplicate, contradicting "exactly one entry for that link appears in the
list passed to evaluation". -/
theorem c1_counterexample :
    combineResults [Except.ok [resA], Except.ok [resB]] = [resA, resB] ∧
    resA.link = resB.link ∧ resA ≠ resB :=
  ⟨rfl, rfl, by decide⟩

/-- Witness for the C2 theorem: every fetcher failing still yields a valid
empty resource list. -/
theorem c2_witness :
    scrape_resources fuzzZero "t" "beginner"
        [Except.error (), Except.error ()] =
      .ok ⟨"Learning resources for t at beginner level", []⟩ :=
  (c2_failure_isolation fuzzZero "t" "beginner"
    [Except.error (), Except.error ()] (by decide)).2 (by decide)

/-- Witness for the C3 theorem, at a single surviving candidate. -/
theorem c3_witness :
    min_score_threshold
        ≤ final_score fuzzZero "!!!" "beginner" (setScore cand1 (3/5)) ∧
    (setScore cand1 (3/5)).score = some (round2
      (final_score fuzzZero "!!!" "beginner" (setScore cand1 (3/5)))) :=
  (c3_threshold_filter fuzzZero [cand1] "!!!" "beginner").1
    (setScore cand1 (3/5)) (by decide)

/-- C5 (counterexample): three candidates with equal final scores (0.6)
come back ordered `cand1, cand3, cand2` although `cand2` was discovered
before `cand3` — the per-category grouping breaks the discovery order of
ties across categories. -/
theorem c5_counterexample :
    evaluate fuzzZero [cand1, cand2, cand3] "!!!" "beginner"
      = [setScore cand1 (3/5), setScore cand3 (3/5), setScore cand2 (3/5)] ∧
    keyScore (setScore cand2 (3/5)) = keyScore (setScore cand3 (3/5)) ∧
    List.indexOf cand2 [cand1, cand2, cand3]
      < List.indexOf cand3 [cand1, cand2, cand3] ∧
    setScore cand2 (3/5) ≠ setScore cand3 (3/5) := by
  refine ⟨by decide, by decide, by decide, by decide⟩

/-- Witness for the C6 theorem, with a similarity function of constant 0. -/
theorem c6_witness :
    0 ≤ calculate_relevance_score fuzzZero cand1 "python" ∧
    calculate_relevance_score fuzzZero cand1 "python" ≤ 1 :=
  (c6_score_ranges fuzzZero
    (fun _ _ => ⟨le_refl 0, by norm_num [fuzzZero]⟩)
    cand1 "python" "beginner").1

/-- C7 (counterexample): an empty topic is not rejected — the request
proceeds and returns a normal (empty) response, contradicting "the request
is rejected with a client-facing validation error". -/
theorem c7_counterexample :
    scrape_resources fuzzZero "" "beginner" [Except.ok []] =
      .ok ⟨"Learning resources for  at beginner level", []⟩ := rfl

/-- Witness for the C7 theorem: an unrecognized level is rejected (as a
500, through the blanket handler). -/
theorem c7_witness :
    scrape_resources fuzzZero "t" "wizard" [] = .error 500 :=
  ((c7_level_validation fuzzZero "t" "wizard" [] []).1 (by decide)).1

/-- C8 (counterexample): a link containing both `github.com` and `docs.`
from an unknown source scores 0.8, below the 0.9 floor the claim promises
for any link containing `docs.` — the `elif` chain stops at the
code-hosting pattern. -/
theorem c8_counterexample :
    strContainsB (toLowerStr rDocs.link) "docs." = true ∧
    calculate_credibility_score rDocs < 9/10 := by
  exact ⟨by decide, by decide⟩

/-- Witness for the C8 theorem: the encyclopedia floor. -/
theorem c8_witness :
    1 ≤ calculate_credibility_score rWiki :=
  (c8_credibility_overrides rWiki).2.1 (by decide)

/-- C9 (counterexample): the record is not unchanged after scoring — the
engine writes the `score` entry into the candidate record in place. -/
theorem c9_counterexample :
    evaluatePostState fuzzZero "!!!" "beginner" cand1 ≠ cand1 := by
  decide

/-- Witness for the C10 theorem, at the token-free topic "!!!". -/
theorem c10_witness :
    calculate_relevance_score fuzzZero cand1 "!!!" = 0 :=
  (c10_tokenless_topic fuzzZero "!!!" (by decide) cand1 "beginner").1

end

end Scraper
